import Mathlib

/-!
Shallow embedding of the RoadBumps analyzer (src/analyzer/src/data.py, with the
parallel copies in src/analyzer/src/analyze.py) and proofs about the claims of
its specification.

Modelling conventions:
* Python floats are modelled as `XFloat`, rationals extended with the two
  infinities produced by the out-of-range acceleration sentinels and a `nan`
  element for the IEEE indeterminate cases (which the parsing pipeline never
  produces).  Timestamps, coordinates and speeds, which are always finite in
  the code paths under consideration, are modelled as plain rationals.
* Timestamps (pendulum datetimes in the source) are rationals counting seconds;
  durations are rational numbers of seconds, so `ts + duration` is rational
  addition, exactly mirroring datetime/timedelta arithmetic.
* Exceptions are modelled with `Except`: `ParseError` values are the fatal
  errors, while `IncompletePositionData` (always caught by the parse loop) is
  modelled as a successful `none` result of message extraction.
-/

/-- Python float values occurring in the analyzer: rationals extended with the
infinities decoded from the out-of-range sentinels.  The `nan` element models
the IEEE indeterminate results (0 * inf, inf - inf, division by a zero count);
no claim exercises them, they exist so the arithmetic below is total in the
same way Python float arithmetic is. -/
inductive XFloat where
  | nan
  | negInf
  | val (q : ℚ)
  | posInf
deriving DecidableEq

namespace XFloat

/-- Addition of Python floats (non-NaN cases follow IEEE; same-signed
infinities absorb, opposite infinities give `nan`). -/
def add : XFloat → XFloat → XFloat
  | nan, _ => nan
  | _, nan => nan
  | posInf, negInf => nan
  | negInf, posInf => nan
  | posInf, _ => posInf
  | _, posInf => posInf
  | negInf, _ => negInf
  | _, negInf => negInf
  | val a, val b => val (a + b)

/-- Adding a finite float (a rational) to a Python float. -/
def addRat (x : XFloat) (c : ℚ) : XFloat :=
  add x (val c)

/-- Multiplying a Python float by a finite float `c` (IEEE: `0 * inf` is
`nan`, otherwise the sign rules apply). -/
def mulRat (c : ℚ) : XFloat → XFloat
  | nan => nan
  | val q => val (c * q)
  | posInf => if c > 0 then posInf else if c < 0 then negInf else nan
  | negInf => if c > 0 then negInf else if c < 0 then posInf else nan

/-- Absolute value of a Python float. -/
def abs : XFloat → XFloat
  | nan => nan
  | negInf => posInf
  | posInf => posInf
  | val q => val |q|

/-- Sum of a list of Python floats, starting from 0 like the builtin `sum`. -/
def sum (l : List XFloat) : XFloat :=
  l.foldl add (val 0)

/-- Division of a Python float by a count (`len` of a nonempty window in the
source; the `n = 0` case models the ZeroDivisionError branch, which the
rolling-average code never reaches). -/
def divNat : XFloat → ℕ → XFloat
  | _, 0 => nan
  | nan, _ => nan
  | posInf, _ => posInf
  | negInf, _ => negInf
  | val q, n => val (q / n)

/-- Python builtin `min` restricted to the non-NaN floats occurring in
`Track.bounds` (`nan` is junk there, it never reaches that code). -/
def min : XFloat → XFloat → XFloat
  | nan, y => y
  | x, nan => x
  | negInf, _ => negInf
  | _, negInf => negInf
  | posInf, y => y
  | x, posInf => x
  | val a, val b => val (Min.min a b)

/-- Python builtin `max` restricted to the non-NaN floats occurring in
`Track.bounds`. -/
def max : XFloat → XFloat → XFloat
  | nan, y => y
  | x, nan => x
  | posInf, _ => posInf
  | _, posInf => posInf
  | negInf, y => y
  | x, negInf => x
  | val a, val b => val (Max.max a b)

end XFloat

/-- One acceleration sample at a point in time (dataclass `Position`).
`analysis_data` is omitted: analysis results are returned as lists by the
embedded analysis functions instead of being memoised into a mutable dict. -/
structure Position where
  ts : ℚ
  lon : ℚ
  lat : ℚ
  speed : ℚ
  accel : XFloat
deriving DecidableEq

/-- Conversion `speed * 3.6` from m/s to km/h (property `speed_kph`). -/
def Position.speed_kph (p : Position) : ℚ :=
  p.speed * 3.6

/-- A track owns the ordered list of positions (class `Track`). -/
structure Track where
  positions : List Position
deriving DecidableEq

/-- State of the fold in `Track.bounds`:
`(min_lon, max_lon, min_lat, max_lat)`. -/
def boundsStep (b : XFloat × XFloat × XFloat × XFloat) (p : Position) :
    XFloat × XFloat × XFloat × XFloat :=
  (XFloat.min b.1 (XFloat.val p.lon), XFloat.max b.2.1 (XFloat.val p.lon),
    XFloat.min b.2.2.1 (XFloat.val p.lat), XFloat.max b.2.2.2 (XFloat.val p.lat))

/-- Property `Track.bounds`: fold `min`/`max` over the positions starting from
the infinities, returning `(min_lon, min_lat, max_lon, max_lat)`. -/
def Track.bounds (t : Track) : XFloat × XFloat × XFloat × XFloat :=
  let r := t.positions.foldl boundsStep
    (XFloat.posInf, XFloat.negInf, XFloat.posInf, XFloat.negInf)
  (r.1, r.2.2.1, r.2.1, r.2.2.2)

/-- Function `capped_fraction` of analyze.py. -/
def capped_fraction (value reference : ℚ) : ℚ :=
  Min.min 1 (value / reference)

/-- Class `Attenuator` of analyze.py: exponent in {1,2,3} for
linear/quadratic/cubic, a speed cap and the attenuation fraction applied at
the cap. -/
structure Attenuator where
  exponent : ℕ
  speed_cap : ℚ
  attenuation_at_max_speed : ℚ
deriving DecidableEq

/-- Method `Attenuator.attenuate` on finite floats. -/
def Attenuator.attenuate (a : Attenuator) (accel speed_kph : ℚ) : ℚ :=
  let fraction_of_max_speed := capped_fraction speed_kph a.speed_cap
  let attenuation := fraction_of_max_speed ^ a.exponent * a.attenuation_at_max_speed
  (1 - attenuation) * accel

/-- Method `Attenuator.attenuate` applied to a possibly infinite mean
acceleration (the float multiplication `(1 - attenuation) * accel`). -/
def Attenuator.attenuateX (a : Attenuator) (accel : XFloat) (speed_kph : ℚ) :
    XFloat :=
  let fraction_of_max_speed := capped_fraction speed_kph a.speed_cap
  let attenuation := fraction_of_max_speed ^ a.exponent * a.attenuation_at_max_speed
  XFloat.mulRat (1 - attenuation) accel

section BoundsLemmas

/-- The four components of the bounds fold from a state of finite floats are
the four rational folds. -/
theorem boundsFold_val (l : List Position) (a b c d : ℚ) :
    l.foldl boundsStep (XFloat.val a, XFloat.val b, XFloat.val c, XFloat.val d) =
      (XFloat.val (l.foldl (fun m p => Min.min m p.lon) a),
        XFloat.val (l.foldl (fun m p => Max.max m p.lon) b),
        XFloat.val (l.foldl (fun m p => Min.min m p.lat) c),
        XFloat.val (l.foldl (fun m p => Max.max m p.lat) d)) := by
  induction l generalizing a b c d with
  | nil => rfl
  | cons p l ih =>
    simp only [List.foldl_cons]
    exact ih (Min.min a p.lon) (Max.max b p.lon) (Min.min c p.lat) (Max.max d p.lat)

end BoundsLemmas

/-- C10: the bounds property returns the quadruple of minimum longitude,
minimum latitude, maximum longitude and maximum latitude over the positions
(expressed as folds of `min`/`max` over the nonempty list), and on a track
with no positions it returns `(+inf, +inf, -inf, -inf)` instead of failing. -/
theorem track_bounds_spec :
    (Track.bounds ⟨[]⟩ =
      (XFloat.posInf, XFloat.posInf, XFloat.negInf, XFloat.negInf)) ∧
    ∀ (t : Track) (p : Position) (ps : List Position), t.positions = p :: ps →
      t.bounds =
        (XFloat.val (ps.foldl (fun m q => Min.min m q.lon) p.lon),
          XFloat.val (ps.foldl (fun m q => Min.min m q.lat) p.lat),
          XFloat.val (ps.foldl (fun m q => Max.max m q.lon) p.lon),
          XFloat.val (ps.foldl (fun m q => Max.max m q.lat) p.lat)) := by
  constructor
  · rfl
  · intro t p ps hpos
    unfold Track.bounds
    rw [hpos]
    simp only [List.foldl_cons]
    have hstep : boundsStep
        (XFloat.posInf, XFloat.negInf, XFloat.posInf, XFloat.negInf) p =
        (XFloat.val p.lon, XFloat.val p.lon, XFloat.val p.lat, XFloat.val p.lat) := by
      rfl
    rw [hstep, boundsFold_val]

/-- Witness for C10 at a concrete two-position track. -/
theorem track_bounds_spec_witness :
    Track.bounds ⟨[⟨0, 3, 7, 0, XFloat.val 0⟩, ⟨1, 1, 9, 0, XFloat.val 0⟩]⟩ =
      (XFloat.val 1, XFloat.val 7, XFloat.val 3, XFloat.val 9) := by
  have h := track_bounds_spec.2
    ⟨[⟨0, 3, 7, 0, XFloat.val 0⟩, ⟨1, 1, 9, 0, XFloat.val 0⟩]⟩
    ⟨0, 3, 7, 0, XFloat.val 0⟩ [⟨1, 1, 9, 0, XFloat.val 0⟩] rfl
  rw [h]
  norm_num

/-- C8: attenuation boundary properties: no attenuation at zero speed, the
full configured attenuation at the speed cap, and constant attenuation above
the cap. -/
theorem attenuation_boundaries (a : Attenuator)
    (hexp : a.exponent = 1 ∨ a.exponent = 2 ∨ a.exponent = 3)
    (hcap : 0 < a.speed_cap)
    (hatt0 : 0 ≤ a.attenuation_at_max_speed)
    (hatt1 : a.attenuation_at_max_speed ≤ 1) :
    ∀ accel : ℚ,
      a.attenuate accel 0 = accel ∧
      a.attenuate accel a.speed_cap = (1 - a.attenuation_at_max_speed) * accel ∧
      ∀ v : ℚ, a.speed_cap < v → a.attenuate accel v = a.attenuate accel a.speed_cap := by
  intro accel
  have hexp1 : 1 ≤ a.exponent := by
    rcases hexp with h | h | h <;> omega
  have hcapne : a.speed_cap ≠ 0 := ne_of_gt hcap
  have hfrac0 : capped_fraction 0 a.speed_cap = 0 := by
    unfold capped_fraction
    rw [zero_div]
    simp
  have hfraccap : capped_fraction a.speed_cap a.speed_cap = 1 := by
    unfold capped_fraction
    rw [div_self hcapne]
    simp
  have hdef : ∀ v : ℚ, a.attenuate accel v =
      (1 - capped_fraction v a.speed_cap ^ a.exponent * a.attenuation_at_max_speed)
        * accel := fun v => rfl
  refine ⟨?_, ?_, ?_⟩
  · rw [hdef, hfrac0, zero_pow (by omega), zero_mul, sub_zero, one_mul]
  · rw [hdef, hfraccap, one_pow, one_mul]
  · intro v hv
    have hfracv : capped_fraction v a.speed_cap = 1 := by
      unfold capped_fraction
      have : 1 ≤ v / a.speed_cap := by
        rw [le_div_iff₀ hcap]
        linarith
      simp [min_eq_left this]
    rw [hdef, hdef, hfracv, hfraccap]

/-- Witness for C8 at a concrete attenuator. -/
theorem attenuation_boundaries_witness :
    (Attenuator.attenuate ⟨1, 40, 1/2⟩ 200 0 = 200) ∧
    (Attenuator.attenuate ⟨1, 40, 1/2⟩ 200 40 = (1 - 1/2) * 200) ∧
    (Attenuator.attenuate ⟨1, 40, 1/2⟩ 200 100 =
      Attenuator.attenuate ⟨1, 40, 1/2⟩ 200 40) := by
  have h := attenuation_boundaries ⟨1, 40, 1/2⟩ (Or.inl rfl) (by norm_num)
    (by norm_num) (by norm_num) 200
  exact ⟨h.1, h.2.1, h.2.2 100 (by norm_num)⟩

/-- Yield condition at the top of the loop in `Track.time_slices`
(`current_slice[-1].ts - current_slice[0].ts >= slice_duration`; the
IndexError on an empty slice is caught and treated as the condition being
false). -/
def slice_duration_reached (dur : ℚ) (slice : List Position) : Bool :=
  match slice.head?, slice.getLast? with
  | some first, some last => decide (dur ≤ last.ts - first.ts)
  | _, _ => false

/-- Loop of the generator `Track.time_slices`: per iteration, yield the
current slice if its span reached the threshold, then consume the next
position; at end of input flush a nonempty remainder. -/
def time_slices_go (dur : ℚ) : List Position → List Position → List (List Position)
  | current, [] =>
    if slice_duration_reached dur current then [current]
    else if current.isEmpty then [] else [current]
  | current, p :: rest =>
    if slice_duration_reached dur current then
      current :: time_slices_go dur [p] rest
    else
      time_slices_go dur (current ++ [p]) rest

/-- Generator `Track.time_slices(duration_seconds)`, collected into a list of
slices. -/
def Track.time_slices (t : Track) (dur : ℚ) : List (List Position) :=
  time_slices_go dur [] t.positions

section TimeSlicesLemmas

theorem slice_duration_reached_ne_nil {dur : ℚ} {current : List Position}
    (h : slice_duration_reached dur current = true) : current ≠ [] := by
  intro hnil
  subst hnil
  simp [slice_duration_reached] at h

theorem slice_duration_reached_spec {dur : ℚ} {s : List Position}
    (h : slice_duration_reached dur s = true) :
    ∃ f l, s.head? = some f ∧ s.getLast? = some l ∧ dur ≤ l.ts - f.ts := by
  unfold slice_duration_reached at h
  cases h1 : s.head? with
  | none => rw [h1] at h; simp at h
  | some f =>
    cases h2 : s.getLast? with
    | none => rw [h1, h2] at h; simp at h
    | some l =>
      rw [h1, h2] at h
      exact ⟨f, l, rfl, rfl, of_decide_eq_true h⟩

theorem time_slices_go_join (dur : ℚ) :
    ∀ (rest current : List Position),
      (time_slices_go dur current rest).join = current ++ rest := by
  intro rest
  induction rest with
  | nil =>
    intro current
    by_cases h : slice_duration_reached dur current
    · simp [time_slices_go, h]
    · by_cases h2 : current.isEmpty
      · simp [time_slices_go, h, h2, List.isEmpty_iff.mp h2]
      · simp [time_slices_go, h, h2]
  | cons p rest ih =>
    intro current
    by_cases h : slice_duration_reached dur current
    · simp [time_slices_go, h, ih [p]]
    · simp [time_slices_go, h, ih (current ++ [p])]

theorem time_slices_go_ne_nil (dur : ℚ) :
    ∀ (rest current : List Position),
      ∀ s ∈ time_slices_go dur current rest, s ≠ [] := by
  intro rest
  induction rest with
  | nil =>
    intro current s hs
    unfold time_slices_go at hs
    by_cases h : slice_duration_reached dur current
    · rw [if_pos h] at hs
      rw [List.mem_singleton] at hs
      subst hs
      exact slice_duration_reached_ne_nil h
    · rw [if_neg h] at hs
      by_cases h2 : current.isEmpty
      · rw [if_pos h2] at hs
        simp at hs
      · rw [if_neg h2, List.mem_singleton] at hs
        subst hs
        intro hnil
        subst hnil
        simp at h2
  | cons p rest ih =>
    intro current s hs
    unfold time_slices_go at hs
    by_cases h : slice_duration_reached dur current
    · rw [if_pos h] at hs
      rcases List.mem_cons.mp hs with h1 | h1
      · subst h1
        exact slice_duration_reached_ne_nil h
      · exact ih [p] s h1
    · rw [if_neg h] at hs
      exact ih (current ++ [p]) s hs

theorem time_slices_go_spans (dur : ℚ) :
    ∀ (rest current : List Position) (i : ℕ),
      i + 1 < (time_slices_go dur current rest).length →
      ∀ s, (time_slices_go dur current rest)[i]? = some s →
        slice_duration_reached dur s = true := by
  intro rest
  induction rest with
  | nil =>
    intro current i hi s _
    exfalso
    unfold time_slices_go at hi
    by_cases h : slice_duration_reached dur current
    · rw [if_pos h] at hi; simp at hi
    · rw [if_neg h] at hi
      by_cases h2 : current.isEmpty
      · rw [if_pos h2] at hi; simp at hi
      · rw [if_neg h2] at hi; simp at hi
  | cons p rest ih =>
    intro current i hi s hs
    unfold time_slices_go at hi hs
    by_cases h : slice_duration_reached dur current
    · rw [if_pos h] at hi hs
      cases i with
      | zero =>
        simp at hs
        subst hs
        exact h
      | succ j =>
        simp only [List.getElem?_cons_succ] at hs
        simp only [List.length_cons] at hi
        exact ih [p] j (by omega) s hs
    · rw [if_neg h] at hi hs
      exact ih (current ++ [p]) i hi s hs

end TimeSlicesLemmas

/-- C7: for every track and positive duration, the yielded slices concatenate
back to the original position list, no yielded slice is empty, and every
slice except possibly the last spans at least the duration, measured from its
first to its last timestamp. -/
theorem time_slices_partition (t : Track) (dur : ℚ) (hdur : 0 < dur) :
    (t.time_slices dur).join = t.positions ∧
    (∀ s ∈ t.time_slices dur, s ≠ []) ∧
    (∀ i, i + 1 < (t.time_slices dur).length →
      ∀ s, (t.time_slices dur)[i]? = some s →
        ∃ f l, s.head? = some f ∧ s.getLast? = some l ∧ dur ≤ l.ts - f.ts) := by
  refine ⟨time_slices_go_join dur t.positions [], ?_, ?_⟩
  · intro s hs
    exact time_slices_go_ne_nil dur t.positions [] s hs
  · intro i hi s hs
    exact slice_duration_reached_spec
      (time_slices_go_spans dur t.positions [] i hi s hs)

/-- Witness for C7 on a concrete three-position track with a one second
duration: the slices concatenate back to the positions. -/
theorem time_slices_partition_witness :
    (Track.time_slices
        ⟨[⟨0, 0, 0, 0, XFloat.val 0⟩, ⟨1, 0, 0, 0, XFloat.val 2⟩,
          ⟨2, 0, 0, 0, XFloat.val 4⟩]⟩ 1).join =
      [⟨0, 0, 0, 0, XFloat.val 0⟩, ⟨1, 0, 0, 0, XFloat.val 2⟩,
        ⟨2, 0, 0, 0, XFloat.val 4⟩] :=
  (time_slices_partition
    ⟨[⟨0, 0, 0, 0, XFloat.val 0⟩, ⟨1, 0, 0, 0, XFloat.val 2⟩,
      ⟨2, 0, 0, 0, XFloat.val 4⟩]⟩ 1 (by norm_num)).1

/-- Fatal parse errors of data.py (`ParseError`).  The invalid-field-name
error of the field-name regex is not modelled: acceleration fields are
represented structurally by their already parsed index bounds. -/
inductive ParseErr where
  | fieldsDontStartAtZero
  | fieldsNotConsecutive
  | mismatchedCounts
  | valueAfterTerminator
deriving DecidableEq

/-- One acceleration sub-field `accel_z_<start>-<end>` of a FIT message:
its declared index bounds and its array of raw signed 16-bit values. -/
structure AccelField where
  start : ℕ
  end_ : ℕ
  values : List ℤ
deriving DecidableEq

/-- The parts of a decoded FIT message consumed by
`FitFileParser._extract_position_data`: the optional named fields (`none`
models both an absent field and a value the converter rejects) and the list
of acceleration sub-fields in message order. -/
structure FitMessage where
  timestamp : Option ℚ
  position_long : Option ℤ
  position_lat : Option ℤ
  enhanced_speed : Option ℚ
  accel_fields : List AccelField
deriving DecidableEq

/-- Sort key comparison used by `sorted(..., key=self._accel_field_bounds)`:
lexicographic on the `(start, end)` bounds pair. -/
def accel_field_key_le (f g : AccelField) : Prop :=
  f.start < g.start ∨ (f.start = g.start ∧ f.end_ ≤ g.end_)

instance : DecidableRel accel_field_key_le := fun f g => by
  unfold accel_field_key_le
  infer_instance

/-- The acceleration sub-fields of a message sorted by their bounds (a stable
sort, like Python sorted). -/
def sorted_accel_fields (m : FitMessage) : List AccelField :=
  List.insertionSort accel_field_key_le m.accel_fields

/-- Method `FitFileParser._assert_valid_accel_fields`, consecutive-pairs
part: each next field must start where the previous one ended. -/
def check_consecutive : List AccelField → Except ParseErr Unit
  | f1 :: f2 :: rest =>
    if f2.start ≠ f1.end_ then .error .fieldsNotConsecutive
    else check_consecutive (f2 :: rest)
  | _ => .ok ()

/-- Method `FitFileParser._assert_valid_accel_fields`: the first field must
start at 0 and consecutive fields must abut.  Only called on a nonempty
list; the empty case is unreachable. -/
def assert_valid_accel_fields : List AccelField → Except ParseErr Unit
  | [] => .ok ()
  | f :: fs =>
    if f.start ≠ 0 then .error .fieldsDontStartAtZero
    else check_consecutive (f :: fs)

/-- Method `FitFileParser._parse_raw_accel`: the sentinel -32768 is the
missing/terminator marker, -32767 and 32767 decode to the infinities, all
other raw values decode to themselves. -/
def parse_raw_accel (raw : ℤ) : Option XFloat :=
  if raw = -32768 then none
  else if raw = -32767 then some XFloat.negInf
  else if raw = 32767 then some XFloat.posInf
  else some (XFloat.val raw)

/-- Inner loop of `FitFileParser._extract_accels` over the raw values of one
field: a decoded value after the first terminator is a fatal error; real
values (infinities included) are appended. -/
def scan_accel_values : Bool → List XFloat → List ℤ →
    Except ParseErr (Bool × List XFloat)
  | reached_end, acc, [] => .ok (reached_end, acc)
  | reached_end, acc, raw :: rest =>
    match parse_raw_accel raw with
    | none => scan_accel_values true acc rest
    | some a =>
      if reached_end then .error .valueAfterTerminator
      else scan_accel_values reached_end (acc ++ [a]) rest

/-- Outer loop of `FitFileParser._extract_accels` over the sorted fields:
each field must carry exactly `end - start` values, then its values are
scanned. -/
def extract_accels_go : Bool → List XFloat → List AccelField →
    Except ParseErr (Bool × List XFloat)
  | reached_end, acc, [] => .ok (reached_end, acc)
  | reached_end, acc, f :: rest =>
    if (f.values.length : ℤ) ≠ (f.end_ : ℤ) - (f.start : ℤ) then
      .error .mismatchedCounts
    else
      match scan_accel_values reached_end acc f.values with
      | .error e => .error e
      | .ok (r, a) => extract_accels_go r a rest

/-- Class constant `EXPECTED_ACCEL_VALUES_PER_MESSAGE`. -/
def EXPECTED_ACCEL_VALUES_PER_MESSAGE : ℕ := 25

/-- Method `FitFileParser._extract_accels`; the final wrong-total-count check
raises IncompletePositionData, which the parse loop catches, so it is
modelled as a successful `none`. -/
def extract_accels (fields : List AccelField) :
    Except ParseErr (Option (List XFloat)) :=
  match extract_accels_go false [] fields with
  | .error e => .error e
  | .ok (_, accels) =>
    if accels.length ≠ EXPECTED_ACCEL_VALUES_PER_MESSAGE then .ok none
    else .ok (some accels)

/-- The tuple returned by `FitFileParser._extract_position_data` on
success. -/
structure ExtractedPositionData where
  ts : ℚ
  lon_semicircles : ℤ
  lat_semicircles : ℤ
  speed : ℚ
  accels : List XFloat
deriving DecidableEq

/-- Method `FitFileParser._extract_position_data`: require the timestamp,
both coordinates, the speed and a nonempty set of acceleration fields, else
signal IncompletePositionData (modelled as `none`, covering both the
message-not-positional and the partially-present cases, which the parse loop
treats identically); then validate the sorted fields and extract the
acceleration values. -/
def extract_position_data (m : FitMessage) :
    Except ParseErr (Option ExtractedPositionData) :=
  match m.timestamp, m.position_long, m.position_lat, m.enhanced_speed,
      sorted_accel_fields m with
  | some ts, some lon, some lat, some speed, f :: fs =>
    match assert_valid_accel_fields (f :: fs) with
    | .error e => .error e
    | .ok _ =>
      match extract_accels (f :: fs) with
      | .error e => .error e
      | .ok none => .ok none
      | .ok (some accels) => .ok (some ⟨ts, lon, lat, speed, accels⟩)
  | _, _, _, _, _ => .ok none

/-- Class constant `GRAVITY_MILLIG` of the abstract `Parser`. -/
def GRAVITY_MILLIG : ℚ := 981

/-- Method `FitFileParser._adjusted_accel`: the sensor reads -1 g in idle, so
the gravity constant is added to make 0 the baseline. -/
def adjusted_accel (accel : XFloat) : XFloat :=
  XFloat.addRat accel GRAVITY_MILLIG

/-- Method `SenseboxBikeRawAccelerationParser._adjusted_accel`: that sensor
reads +1 g in idle in m/s^2, so the value is scaled by 100 and the gravity
constant subtracted. -/
def sensebox_adjusted_accel (accel : ℚ) : ℚ :=
  accel * 100 - GRAVITY_MILLIG

/-- Method `FitFileParser._semicircles_to_deg`.  In exact arithmetic
`math.degrees((s * pi) / 2^31) = s * (180 / pi) * pi / 2^31 = s * 180 / 2^31`,
a rational. -/
def semicircles_to_deg (semicircles : ℤ) : ℚ :=
  (semicircles : ℚ) * 180 / 2 ^ 31

/-- Inner loop of `FitFileParser.parse` over the accepted acceleration values
of one message: each sample is broadcast with the shared coordinates and
speed, an evenly spaced timestamp and the baseline-adjusted acceleration. -/
def broadcast_positions (ts lonDeg latDeg speed spa : ℚ) :
    ℕ → List XFloat → List Position
  | _, [] => []
  | i, a :: rest =>
    ⟨ts + i * spa, lonDeg, latDeg, speed, adjusted_accel a⟩ ::
      broadcast_positions ts lonDeg latDeg speed spa (i + 1) rest

/-- The positions one successfully extracted message contributes in
`FitFileParser.parse`: `seconds_per_accel = 1 / len(accels)`. -/
def positions_of_extracted (e : ExtractedPositionData) : List Position :=
  broadcast_positions e.ts (semicircles_to_deg e.lon_semicircles)
    (semicircles_to_deg e.lat_semicircles) e.speed
    (1 / (e.accels.length : ℚ)) 0 e.accels

/-- Message loop of `FitFileParser.parse`: skipped messages (incomplete
position data) contribute nothing, fatal errors propagate, extracted
messages append their broadcast positions in order. -/
def parse_messages : List FitMessage → Except ParseErr (List Position)
  | [] => .ok []
  | m :: rest =>
    match extract_position_data m with
    | .error e => .error e
    | .ok none => parse_messages rest
    | .ok (some e) =>
      match parse_messages rest with
      | .error err => .error err
      | .ok ps => .ok (positions_of_extracted e ++ ps)

/-- All raw acceleration values of a sorted field list, walked in index
order. -/
def flat_accel_values (fields : List AccelField) : List ℤ :=
  (fields.map (fun f => f.values)).flatten

/-- Every field carries exactly `end - start` raw values. -/
def counts_ok (fields : List AccelField) : Prop :=
  ∀ f ∈ fields, (f.values.length : ℤ) = (f.end_ : ℤ) - (f.start : ℤ)

instance (fields : List AccelField) : Decidable (counts_ok fields) := by
  unfold counts_ok
  infer_instance

/-- Terminator discipline over a raw value sequence: after an occurrence of
the sentinel -32768 every later raw value is also the sentinel. -/
def terminator_ok (vs : List ℤ) : Prop :=
  ∀ i j : Fin vs.length, (i : ℕ) < (j : ℕ) →
    vs.get i = -32768 → vs.get j = -32768

instance (vs : List ℤ) : Decidable (terminator_ok vs) := by
  unfold terminator_ok
  infer_instance

section BroadcastLemmas

theorem broadcast_positions_length (ts lonDeg latDeg speed spa : ℚ) :
    ∀ (accels : List XFloat) (i : ℕ),
      (broadcast_positions ts lonDeg latDeg speed spa i accels).length =
        accels.length := by
  intro accels
  induction accels with
  | nil => intro i; rfl
  | cons a rest ih =>
    intro i
    simp only [broadcast_positions, List.length_cons, ih (i + 1)]

theorem broadcast_positions_get (ts lonDeg latDeg speed spa : ℚ) :
    ∀ (accels : List XFloat) (i j : ℕ),
      (broadcast_positions ts lonDeg latDeg speed spa i accels)[j]? =
        accels[j]?.map (fun a =>
          ⟨ts + (i + j) * spa, lonDeg, latDeg, speed, adjusted_accel a⟩) := by
  intro accels
  induction accels with
  | nil => intro i j; simp [broadcast_positions]
  | cons a rest ih =>
    intro i j
    cases j with
    | zero => simp [broadcast_positions]
    | succ k =>
      simp only [broadcast_positions, List.getElem?_cons_succ]
      rw [ih (i + 1) k]
      push_cast
      ring_nf

end BroadcastLemmas

/-- C2 counterexample: at raw decoded value 0, the FIT parser stores 981
milli-g (not 0 + 1000), and the sensebox parser stores -981 (not
0 * 100 - 1000): the gravity constant `GRAVITY_MILLIG` in data.py is 981,
not 1000. -/
theorem gravity_adjustment_counterexample :
    adjusted_accel (XFloat.val 0) = XFloat.val 981 ∧
    XFloat.val (981 : ℚ) ≠ XFloat.val ((0 : ℚ) + 1000) ∧
    sensebox_adjusted_accel 0 = -981 ∧
    ((-981 : ℚ) ≠ (0 : ℚ) * 100 - 1000) := by
  refine ⟨?_, ?_, ?_, ?_⟩
  · show XFloat.add (XFloat.val 0) (XFloat.val GRAVITY_MILLIG) = XFloat.val 981
    unfold GRAVITY_MILLIG
    rw [XFloat.add]
    norm_num
  · intro h
    rw [XFloat.val.injEq] at h
    norm_num at h
  · show (0 : ℚ) * 100 - GRAVITY_MILLIG = -981
    unfold GRAVITY_MILLIG
    norm_num
  · intro h
    norm_num at h

/-- C2 amended: every accepted acceleration value is stored as the raw
decoded value plus the gravity constant 981 milli-g of data.py (not 1000),
and the sensebox source stores the raw z value times 100 minus 981. -/
theorem gravity_adjustment_adds_981 :
    (∀ (e : ExtractedPositionData) (i : ℕ) (a : XFloat),
      e.accels[i]? = some a →
      ∃ p : Position, (positions_of_extracted e)[i]? = some p ∧
        p.accel = XFloat.addRat a 981) ∧
    (∀ q : ℚ, sensebox_adjusted_accel q = q * 100 - 981) := by
  constructor
  · intro e i a ha
    unfold positions_of_extracted
    rw [broadcast_positions_get, ha]
    exact ⟨_, rfl, rfl⟩
  · intro q
    rfl

/-- Witness for C2 at a concrete extracted message with one raw value 5. -/
theorem gravity_adjustment_adds_981_witness :
    ∃ p : Position,
      (positions_of_extracted ⟨0, 0, 0, 0, [XFloat.val 5]⟩)[0]? = some p ∧
      p.accel = XFloat.addRat (XFloat.val 5) 981 :=
  gravity_adjustment_adds_981.1 ⟨0, 0, 0, 0, [XFloat.val 5]⟩ 0 (XFloat.val 5) rfl

section TerminatorLemmas

theorem parse_raw_accel_eq_none_iff (v : ℤ) :
    parse_raw_accel v = none ↔ v = -32768 := by
  unfold parse_raw_accel
  by_cases h1 : v = -32768
  · simp [h1]
  · by_cases h2 : v = -32767
    · simp [h1, h2]
    · by_cases h3 : v = 32767
      · simp [h1, h2, h3]
      · simp [h1, h2, h3]

theorem parse_raw_accel_ne (v : ℤ) (h : v ≠ -32768) :
    ∃ a, parse_raw_accel v = some a := by
  cases hp : parse_raw_accel v with
  | none => exact absurd ((parse_raw_accel_eq_none_iff v).mp hp) h
  | some a => exact ⟨a, rfl⟩

theorem terminator_ok_nil : terminator_ok [] := by
  intro i
  exact absurd i.isLt (by simp)

theorem terminator_ok_getElem {vs : List ℤ} (h : terminator_ok vs)
    {i j : ℕ} (hi : i < vs.length) (hj : j < vs.length) (hij : i < j)
    (hv : vs[i] = -32768) : vs[j] = -32768 := by
  have := h ⟨i, hi⟩ ⟨j, hj⟩ hij (by simpa [List.get_eq_getElem] using hv)
  simpa [List.get_eq_getElem] using this

theorem terminator_ok_of_getElem {vs : List ℤ}
    (h : ∀ (i j : ℕ) (hi : i < vs.length) (hj : j < vs.length), i < j →
      vs[i] = -32768 → vs[j] = -32768) : terminator_ok vs := by
  intro i j hij hvi
  simp only [List.get_eq_getElem]
  exact h i j i.isLt j.isLt hij (by simpa [List.get_eq_getElem] using hvi)

theorem terminator_ok_of_all {vs : List ℤ} (h : ∀ v ∈ vs, v = -32768) :
    terminator_ok vs := by
  apply terminator_ok_of_getElem
  intro i j hi hj hij hvi
  exact h _ (List.getElem_mem hj)

theorem terminator_ok_cons (v : ℤ) (rest : List ℤ) :
    terminator_ok (v :: rest) ↔
      ((v = -32768 → ∀ w ∈ rest, w = -32768) ∧ terminator_ok rest) := by
  constructor
  · intro h
    constructor
    · intro hv w hw
      obtain ⟨k, hk, hkw⟩ := List.mem_iff_getElem.mp hw
      have := terminator_ok_getElem h
        (i := 0) (j := k + 1) (by simp) (by simp; omega) (by omega)
        (by simpa using hv)
      simpa [hkw] using this
    · apply terminator_ok_of_getElem
      intro i j hi hj hij hvi
      have := terminator_ok_getElem h
        (i := i + 1) (j := j + 1) (by simp; omega) (by simp; omega) (by omega)
        (by simpa using hvi)
      simpa using this
  · rintro ⟨h1, h2⟩
    apply terminator_ok_of_getElem
    intro i j hi hj hij hvi
    cases j with
    | zero => omega
    | succ j2 =>
      simp only [List.getElem_cons_succ]
      cases i with
      | zero =>
        simp only [List.getElem_cons_zero] at hvi
        have hj2 : j2 < rest.length := by
          simp only [List.length_cons] at hj
          omega
        exact h1 hvi _ (List.getElem_mem hj2)
      | succ i2 =>
        simp only [List.getElem_cons_succ] at hvi
        have hi2 : i2 < rest.length := by
          simp only [List.length_cons] at hi
          omega
        have hj2 : j2 < rest.length := by
          simp only [List.length_cons] at hj
          omega
        exact terminator_ok_getElem h2 hi2 hj2 (by omega) hvi

theorem scan_true_all_sentinel :
    ∀ (vs : List ℤ), (∀ v ∈ vs, v = -32768) → ∀ acc,
      scan_accel_values true acc vs = .ok (true, acc) := by
  intro vs
  induction vs with
  | nil => intro _ acc; rfl
  | cons v rest ih =>
    intro h acc
    have hpv : parse_raw_accel v = none := by
      rw [parse_raw_accel_eq_none_iff]
      exact h v (List.mem_cons_self v rest)
    simp only [scan_accel_values, hpv]
    exact ih (fun w hw => h w (List.mem_cons_of_mem v hw)) acc

theorem scan_true_error :
    ∀ (vs : List ℤ), (∃ v ∈ vs, v ≠ -32768) → ∀ acc,
      scan_accel_values true acc vs = .error .valueAfterTerminator := by
  intro vs
  induction vs with
  | nil =>
    rintro ⟨v, hv, _⟩
    exact absurd hv (List.not_mem_nil v)
  | cons v rest ih =>
    rintro ⟨w, hw, hwne⟩ acc
    by_cases hv : v = -32768
    · have hpv : parse_raw_accel v = none := by
        rw [parse_raw_accel_eq_none_iff]
        exact hv
      simp only [scan_accel_values, hpv]
      apply ih _ acc
      rcases List.mem_cons.mp hw with h1 | h1
      · exact absurd (h1.trans hv) hwne
      · exact ⟨w, h1, hwne⟩
    · obtain ⟨a, hpa⟩ := parse_raw_accel_ne v hv
      simp only [scan_accel_values, hpa, if_true]

theorem scan_false_no_sentinel :
    ∀ (vs : List ℤ), (∀ v ∈ vs, v ≠ -32768) → ∀ acc,
      scan_accel_values false acc vs =
        .ok (false, acc ++ vs.filterMap parse_raw_accel) := by
  intro vs
  induction vs with
  | nil => intro _ acc; simp [scan_accel_values]
  | cons v rest ih =>
    intro h acc
    obtain ⟨a, hpa⟩ := parse_raw_accel_ne v (h v (List.mem_cons_self v rest))
    simp only [scan_accel_values, hpa, Bool.false_eq_true, if_false]
    rw [ih (fun w hw => h w (List.mem_cons_of_mem v hw)) (acc ++ [a])]
    rw [List.filterMap_cons_some hpa]
    simp [List.append_assoc]

theorem scan_false_terminator_ok :
    ∀ (vs : List ℤ), terminator_ok vs → ∀ acc,
      ∃ b, scan_accel_values false acc vs =
        .ok (b, acc ++ vs.filterMap parse_raw_accel) := by
  intro vs
  induction vs with
  | nil =>
    intro _ acc
    exact ⟨false, by simp [scan_accel_values]⟩
  | cons v rest ih =>
    intro h acc
    rw [terminator_ok_cons] at h
    obtain ⟨h1, h2⟩ := h
    by_cases hv : v = -32768
    · have hall := h1 hv
      have hpv : parse_raw_accel v = none := by
        rw [parse_raw_accel_eq_none_iff]
        exact hv
      refine ⟨true, ?_⟩
      simp only [scan_accel_values, hpv]
      rw [scan_true_all_sentinel rest hall acc]
      have hfm : rest.filterMap parse_raw_accel = [] := by
        rw [List.filterMap_eq_nil_iff]
        intro w hw
        rw [parse_raw_accel_eq_none_iff]
        exact hall w hw
      rw [List.filterMap_cons_none hpv, hfm, List.append_nil]
    · obtain ⟨a, hpa⟩ := parse_raw_accel_ne v hv
      obtain ⟨b, hb⟩ := ih h2 (acc ++ [a])
      refine ⟨b, ?_⟩
      simp only [scan_accel_values, hpa, Bool.false_eq_true, if_false]
      rw [hb, List.filterMap_cons_some hpa]
      simp [List.append_assoc]

theorem scan_false_violation :
    ∀ (vs : List ℤ), ¬ terminator_ok vs → ∀ acc,
      scan_accel_values false acc vs = .error .valueAfterTerminator := by
  intro vs
  induction vs with
  | nil => intro h; exact absurd terminator_ok_nil h
  | cons v rest ih =>
    intro h acc
    rw [terminator_ok_cons] at h
    by_cases hv : v = -32768
    · have hpv : parse_raw_accel v = none := by
        rw [parse_raw_accel_eq_none_iff]
        exact hv
      simp only [scan_accel_values, hpv]
      apply scan_true_error _ _ acc
      by_contra hno
      push_neg at hno
      exact h ⟨fun _ => hno, terminator_ok_of_all hno⟩
    · have hrest : ¬ terminator_ok rest := by
        intro hok
        exact h ⟨fun hveq => absurd hveq hv, hok⟩
      obtain ⟨a, hpa⟩ := parse_raw_accel_ne v hv
      simp only [scan_accel_values, hpa, Bool.false_eq_true, if_false]
      exact ih hrest (acc ++ [a])

theorem scan_append :
    ∀ (xs ys : List ℤ) (r : Bool) (acc : List XFloat),
      scan_accel_values r acc (xs ++ ys) =
        match scan_accel_values r acc xs with
        | .error e => .error e
        | .ok ra => scan_accel_values ra.1 ra.2 ys := by
  intro xs
  induction xs with
  | nil => intro ys r acc; rfl
  | cons x xs ih =>
    intro ys r acc
    cases hp : parse_raw_accel x with
    | none =>
      simp only [List.cons_append, scan_accel_values, hp]
      exact ih ys true acc
    | some a =>
      cases r with
      | true => simp only [List.cons_append, scan_accel_values, hp, if_true]
      | false =>
        simp only [List.cons_append, scan_accel_values, hp,
          Bool.false_eq_true, if_false]
        exact ih ys false (acc ++ [a])

theorem extract_accels_go_eq_scan :
    ∀ (fields : List AccelField), counts_ok fields →
      ∀ (r : Bool) (acc : List XFloat),
        extract_accels_go r acc fields =
          scan_accel_values r acc (flat_accel_values fields) := by
  intro fields
  induction fields with
  | nil => intro _ r acc; rfl
  | cons f rest ih =>
    intro h r acc
    have hf : (f.values.length : ℤ) = (f.end_ : ℤ) - (f.start : ℤ) :=
      h f (List.mem_cons_self f rest)
    have hrest : counts_ok rest := fun g hg => h g (List.mem_cons_of_mem f hg)
    have hflat : flat_accel_values (f :: rest) =
        f.values ++ flat_accel_values rest := by
      simp [flat_accel_values]
    rw [hflat, scan_append]
    simp only [extract_accels_go, if_neg (not_not_intro hf)]
    cases hscan : scan_accel_values r acc f.values with
    | error e => rfl
    | ok ra => exact ih hrest ra.1 ra.2

theorem extract_accels_go_bad_count :
    ∀ (fields : List AccelField),
      (∃ f ∈ fields, (f.values.length : ℤ) ≠ (f.end_ : ℤ) - (f.start : ℤ)) →
      ∀ (r : Bool) (acc : List XFloat),
        ∃ e, extract_accels_go r acc fields = .error e := by
  intro fields
  induction fields with
  | nil =>
    rintro ⟨f, hf, _⟩
    exact absurd hf (List.not_mem_nil f)
  | cons f rest ih =>
    rintro ⟨g, hg, hgne⟩ r acc
    by_cases hf : (f.values.length : ℤ) ≠ (f.end_ : ℤ) - (f.start : ℤ)
    · exact ⟨.mismatchedCounts, by simp only [extract_accels_go, if_pos hf]⟩
    · simp only [extract_accels_go, if_neg hf]
      cases hscan : scan_accel_values r acc f.values with
      | error e => exact ⟨e, rfl⟩
      | ok ra =>
        apply ih
        rcases List.mem_cons.mp hg with h1 | h1
        · exact absurd (h1 ▸ hgne) hf
        · exact ⟨g, h1, hgne⟩

end TerminatorLemmas

/-- C3: the terminator rule of acceleration extraction.  The sentinel -32768
decodes to the missing marker, -32767 and 32767 decode to the negative and
positive infinity and are kept as real sample values; walking the raw values
in index order across the sorted sub-fields, a non-terminator value after a
terminator is the fatal error valueAfterTerminator, while a sequence obeying
the terminator discipline extracts exactly the decoded real values. -/
theorem terminator_rule :
    (parse_raw_accel (-32768) = none ∧
      parse_raw_accel (-32767) = some XFloat.negInf ∧
      parse_raw_accel 32767 = some XFloat.posInf) ∧
    (∀ fields : List AccelField, counts_ok fields →
      (∃ i j : Fin (flat_accel_values fields).length, (i : ℕ) < (j : ℕ) ∧
        (flat_accel_values fields).get i = -32768 ∧
        (flat_accel_values fields).get j ≠ -32768) →
      extract_accels_go false [] fields = .error .valueAfterTerminator) ∧
    (∀ fields : List AccelField, counts_ok fields →
      terminator_ok (flat_accel_values fields) →
      ∃ b, extract_accels_go false [] fields =
        .ok (b, (flat_accel_values fields).filterMap parse_raw_accel)) := by
  refine ⟨⟨rfl, rfl, rfl⟩, ?_, ?_⟩
  · rintro fields hcounts ⟨i, j, hij, hvi, hvj⟩
    rw [extract_accels_go_eq_scan fields hcounts]
    apply scan_false_violation
    intro hok
    exact hvj (hok i j hij hvi)
  · intro fields hcounts hterm
    rw [extract_accels_go_eq_scan fields hcounts]
    simpa using scan_false_terminator_ok _ hterm []

/-- Witness for C3: a field carrying the terminator followed by a real value
is rejected with valueAfterTerminator. -/
theorem terminator_rule_witness :
    extract_accels_go false [] [⟨0, 2, [-32768, 5]⟩] =
      .error .valueAfterTerminator := by
  apply terminator_rule.2.1 [⟨0, 2, [-32768, 5]⟩] (by decide)
  refine ⟨⟨0, by decide⟩, ⟨1, by decide⟩, by decide, by decide, by decide⟩

section TaxonomyLemmas

theorem check_consecutive_error :
    ∀ (fields : List AccelField),
      (∃ pr ∈ fields.zip fields.tail, pr.2.start ≠ pr.1.end_) →
      ∃ e, check_consecutive fields = .error e := by
  intro fields
  induction fields with
  | nil =>
    rintro ⟨pr, hpr, _⟩
    simp at hpr
  | cons f1 rest ih =>
    rintro ⟨pr, hpr, hne⟩
    cases rest with
    | nil => simp at hpr
    | cons f2 rest2 =>
      by_cases h12 : f2.start ≠ f1.end_
      · exact ⟨.fieldsNotConsecutive, by simp only [check_consecutive, if_pos h12]⟩
      · simp only [check_consecutive, if_neg h12]
        apply ih
        simp only [List.tail_cons, List.zip_cons_cons, List.mem_cons] at hpr
        rcases hpr with h1 | h1
        · exfalso
          rw [h1] at hne
          exact h12 hne
        · exact ⟨pr, by simpa using h1, hne⟩

theorem assert_valid_error (f : AccelField) (fs : List AccelField)
    (h : f.start ≠ 0 ∨ ∃ pr ∈ (f :: fs).zip fs, pr.2.start ≠ pr.1.end_) :
    ∃ e, assert_valid_accel_fields (f :: fs) = .error e := by
  by_cases h0 : f.start ≠ 0
  · exact ⟨.fieldsDontStartAtZero, by simp only [assert_valid_accel_fields, if_pos h0]⟩
  · rcases h with h1 | h2
    · exact absurd h1 h0
    · obtain ⟨e, he⟩ := check_consecutive_error (f :: fs) (by simpa using h2)
      refine ⟨e, ?_⟩
      simp only [assert_valid_accel_fields, if_neg h0]
      exact he

end TaxonomyLemmas

/-- C4: the error taxonomy of extraction.  A message whose sorted
acceleration sub-fields do not start at index 0, are not mutually abutting,
or whose declared counts mismatch the carried values, makes the whole parse
fail with a fatal error; a message missing some but not all of the position
fields, and a message yielding a total number of accepted values different
from 25, are silently dropped and parsing continues. -/
theorem extraction_error_taxonomy :
    (∀ (m : FitMessage) (ts : ℚ) (lon lat : ℤ) (speed : ℚ)
        (f : AccelField) (fs : List AccelField),
      m.timestamp = some ts → m.position_long = some lon →
      m.position_lat = some lat → m.enhanced_speed = some speed →
      sorted_accel_fields m = f :: fs →
      (f.start ≠ 0 ∨
        (∃ pr ∈ (f :: fs).zip fs, pr.2.start ≠ pr.1.end_) ∨
        (∃ g ∈ f :: fs, (g.values.length : ℤ) ≠ (g.end_ : ℤ) - (g.start : ℤ))) →
      ∃ e, extract_position_data m = .error e ∧
        ∀ rest, parse_messages (m :: rest) = .error e) ∧
    (∀ m : FitMessage,
      ¬ (m.timestamp.isSome ∧ m.position_long.isSome ∧ m.position_lat.isSome ∧
          m.enhanced_speed.isSome ∧ sorted_accel_fields m ≠ []) →
      (m.position_long.isSome ∨ m.position_lat.isSome ∨
        m.enhanced_speed.isSome ∨ sorted_accel_fields m ≠ []) →
      extract_position_data m = .ok none ∧
        ∀ rest, parse_messages (m :: rest) = parse_messages rest) ∧
    (∀ (m : FitMessage) (ts : ℚ) (lon lat : ℤ) (speed : ℚ)
        (f : AccelField) (fs : List AccelField) (b : Bool) (accels : List XFloat),
      m.timestamp = some ts → m.position_long = some lon →
      m.position_lat = some lat → m.enhanced_speed = some speed →
      sorted_accel_fields m = f :: fs →
      assert_valid_accel_fields (f :: fs) = .ok () →
      extract_accels_go false [] (f :: fs) = .ok (b, accels) →
      accels.length ≠ 25 →
      extract_position_data m = .ok none ∧
        ∀ rest, parse_messages (m :: rest) = parse_messages rest) := by
  refine ⟨?_, ?_, ?_⟩
  · intro m ts lon lat speed f fs hts hlon hlat hspeed hsorted hviol
    have hE : ∃ e, extract_position_data m = .error e := by
      rcases hviol with hv1 | hv2 | hv3
      · obtain ⟨e, he⟩ := assert_valid_error f fs (Or.inl hv1)
        exact ⟨e, by simp only [extract_position_data, hts, hlon, hlat, hspeed,
          hsorted, he]⟩
      · obtain ⟨e, he⟩ := assert_valid_error f fs (Or.inr hv2)
        exact ⟨e, by simp only [extract_position_data, hts, hlon, hlat, hspeed,
          hsorted, he]⟩
      · cases hva : assert_valid_accel_fields (f :: fs) with
        | error e =>
          exact ⟨e, by simp only [extract_position_data, hts, hlon, hlat,
            hspeed, hsorted, hva]⟩
        | ok u =>
          obtain ⟨e, he⟩ := extract_accels_go_bad_count (f :: fs) hv3 false []
          refine ⟨e, ?_⟩
          have hea : extract_accels (f :: fs) = .error e := by
            unfold extract_accels
            rw [he]
          cases u
          simp only [extract_position_data, hts, hlon, hlat, hspeed, hsorted,
            hva, hea]
    obtain ⟨e, he⟩ := hE
    refine ⟨e, he, ?_⟩
    intro rest
    simp only [parse_messages, he]
  · intro m hnot hsome
    have hE : extract_position_data m = .ok none := by
      rcases hts : m.timestamp with _ | ts <;>
        rcases hlon : m.position_long with _ | lon <;>
          rcases hlat : m.position_lat with _ | lat <;>
            rcases hspd : m.enhanced_speed with _ | speed <;>
              rcases hsf : sorted_accel_fields m with _ | ⟨f, fs⟩ <;>
                simp_all [extract_position_data]
    refine ⟨hE, ?_⟩
    intro rest
    simp only [parse_messages, hE]
  · intro m ts lon lat speed f fs b accels hts hlon hlat hspeed hsorted hvalid
      hgo hlen
    have hea : extract_accels (f :: fs) = .ok none := by
      unfold extract_accels
      rw [hgo]
      simp [EXPECTED_ACCEL_VALUES_PER_MESSAGE, hlen]
    have hE : extract_position_data m = .ok none := by
      simp only [extract_position_data, hts, hlon, hlat, hspeed, hsorted,
        hvalid, hea]
    refine ⟨hE, ?_⟩
    intro rest
    simp only [parse_messages, hE]

/-- Witness for C4: a message whose single acceleration field starts at
index 1 is a fatal parse error, and a message with a timestamp and
coordinates but no speed and no acceleration fields is skipped. -/
theorem extraction_error_taxonomy_witness :
    (∃ e, extract_position_data
        ⟨some 0, some 1, some 2, some 3, [⟨1, 3, [5, 6]⟩]⟩ = .error e ∧
      ∀ rest, parse_messages
        (⟨some 0, some 1, some 2, some 3, [⟨1, 3, [5, 6]⟩]⟩ :: rest) =
          .error e) ∧
    (extract_position_data ⟨some 0, some 1, some 2, none, []⟩ = .ok none ∧
      ∀ rest, parse_messages (⟨some 0, some 1, some 2, none, []⟩ :: rest) =
        parse_messages rest) := by
  constructor
  · exact extraction_error_taxonomy.1
      ⟨some 0, some 1, some 2, some 3, [⟨1, 3, [5, 6]⟩]⟩ 0 1 2 3 ⟨1, 3, [5, 6]⟩ []
      rfl rfl rfl rfl rfl (Or.inl (by decide))
  · exact extraction_error_taxonomy.2.1 ⟨some 0, some 1, some 2, none, []⟩
      (by simp [sorted_accel_fields, List.insertionSort]) (by simp)

section ExtractionLemmas

theorem filterMap_parse_length :
    ∀ vs : List ℤ, (vs.filterMap parse_raw_accel).length =
      (vs.filter (fun v => decide (v ≠ -32768))).length := by
  intro vs
  induction vs with
  | nil => rfl
  | cons v rest ih =>
    by_cases hv : v = -32768
    · have hpv : parse_raw_accel v = none := by
        rw [parse_raw_accel_eq_none_iff]
        exact hv
      rw [List.filterMap_cons_none hpv,
        List.filter_cons_of_neg (by simpa using hv)]
      exact ih
    · obtain ⟨a, hpa⟩ := parse_raw_accel_ne v hv
      rw [List.filterMap_cons_some hpa,
        List.filter_cons_of_pos (by simpa using hv)]
      simp only [List.length_cons, ih]

end ExtractionLemmas

/-- C1: a FIT message carrying a timestamp, both coordinates, a speed and a
valid set of acceleration sub-fields with exactly 25 accepted
(non-terminator) raw values is extracted successfully and contributes
exactly 25 positions, the i-th carrying timestamp `ts + i * (1/25)` and all
of them the converted longitude and latitude and the shared speed. -/
theorem fit_extraction_yields_25_positions
    (m : FitMessage) (ts : ℚ) (lon lat : ℤ) (speed : ℚ)
    (f : AccelField) (fs : List AccelField)
    (hts : m.timestamp = some ts) (hlon : m.position_long = some lon)
    (hlat : m.position_lat = some lat) (hspeed : m.enhanced_speed = some speed)
    (hsorted : sorted_accel_fields m = f :: fs)
    (hvalid : assert_valid_accel_fields (f :: fs) = .ok ())
    (hcounts : counts_ok (f :: fs))
    (hterm : terminator_ok (flat_accel_values (f :: fs)))
    (hcount25 : ((flat_accel_values (f :: fs)).filter
      (fun v => decide (v ≠ -32768))).length = 25) :
    ∃ accels : List XFloat,
      extract_position_data m = .ok (some ⟨ts, lon, lat, speed, accels⟩) ∧
      accels.length = 25 ∧
      ∀ rest ps, parse_messages rest = .ok ps →
        parse_messages (m :: rest) =
          .ok (positions_of_extracted ⟨ts, lon, lat, speed, accels⟩ ++ ps) ∧
        (positions_of_extracted ⟨ts, lon, lat, speed, accels⟩).length = 25 ∧
        ∀ i : ℕ, i < 25 →
          ∃ p : Position,
            (positions_of_extracted ⟨ts, lon, lat, speed, accels⟩)[i]? = some p ∧
            p.ts = ts + i * (1 / 25) ∧ p.lon = semicircles_to_deg lon ∧
            p.lat = semicircles_to_deg lat ∧ p.speed = speed := by
  obtain ⟨b, hgo⟩ := (terminator_rule.2.2) (f :: fs) hcounts hterm
  set accels := (flat_accel_values (f :: fs)).filterMap parse_raw_accel with haccels
  have hlen : accels.length = 25 := by
    rw [haccels, filterMap_parse_length]
    exact hcount25
  have hea : extract_accels (f :: fs) = .ok (some accels) := by
    unfold extract_accels
    rw [hgo]
    simp [EXPECTED_ACCEL_VALUES_PER_MESSAGE, hlen]
  have hE : extract_position_data m = .ok (some ⟨ts, lon, lat, speed, accels⟩) := by
    simp only [extract_position_data, hts, hlon, hlat, hspeed, hsorted,
      hvalid, hea]
  refine ⟨accels, hE, hlen, ?_⟩
  intro rest ps hrest
  refine ⟨?_, ?_, ?_⟩
  · simp only [parse_messages, hE, hrest]
  · unfold positions_of_extracted
    rw [broadcast_positions_length]
    exact hlen
  · intro i hi
    unfold positions_of_extracted
    rw [broadcast_positions_get]
    have hie : i < accels.length := by omega
    rw [List.getElem?_eq_getElem hie]
    refine ⟨_, rfl, ?_, rfl, rfl, rfl⟩
    show ts + (((0 : ℕ) : ℚ) + (i : ℚ)) * (1 / ((accels.length : ℕ) : ℚ)) =
      ts + (i : ℚ) * (1 / 25)
    rw [hlen]
    norm_num

/-- Witness for C1: a concrete message with one field of 25 zero raw values
extracts to 25 positions; the first has the message timestamp. -/
theorem fit_extraction_yields_25_positions_witness :
    ∃ accels : List XFloat,
      extract_position_data
        ⟨some 7, some 1, some 2, some 3,
          [⟨0, 25, [0, 0, 0, 0, 0, 0, 0, 0, 0, 0, 0, 0, 0, 0, 0, 0, 0, 0, 0,
            0, 0, 0, 0, 0, 0]⟩]⟩ =
        .ok (some ⟨7, 1, 2, 3, accels⟩) ∧
      accels.length = 25 ∧
      ∀ rest ps, parse_messages rest = .ok ps →
        parse_messages
          (⟨some 7, some 1, some 2, some 3,
            [⟨0, 25, [0, 0, 0, 0, 0, 0, 0, 0, 0, 0, 0, 0, 0, 0, 0, 0, 0, 0,
              0, 0, 0, 0, 0, 0, 0]⟩]⟩ :: rest) =
          .ok (positions_of_extracted ⟨7, 1, 2, 3, accels⟩ ++ ps) ∧
        (positions_of_extracted ⟨7, 1, 2, 3, accels⟩).length = 25 ∧
        ∀ i : ℕ, i < 25 →
          ∃ p : Position,
            (positions_of_extracted ⟨7, 1, 2, 3, accels⟩)[i]? = some p ∧
            p.ts = 7 + i * (1 / 25) ∧ p.lon = semicircles_to_deg 1 ∧
            p.lat = semicircles_to_deg 2 ∧ p.speed = 3 :=
  fit_extraction_yields_25_positions
    ⟨some 7, some 1, some 2, some 3,
      [⟨0, 25, [0, 0, 0, 0, 0, 0, 0, 0, 0, 0, 0, 0, 0, 0, 0, 0, 0, 0, 0, 0,
        0, 0, 0, 0, 0]⟩]⟩ 7 1 2 3
    ⟨0, 25, [0, 0, 0, 0, 0, 0, 0, 0, 0, 0, 0, 0, 0, 0, 0, 0, 0, 0, 0, 0, 0,
      0, 0, 0, 0]⟩ []
    rfl rfl rfl rfl rfl rfl (by decide) (by decide) (by decide)

/-- One iteration of the sliding-window loop in
`Track.ensure_rolling_average_absolute_accels`: append the position, then
evict from the front every position strictly older than `min_ts`. -/
def rolling_window_step (min_ts : ℚ) (window : List Position) (p : Position) :
    List Position :=
  (window ++ [p]).dropWhile (fun q => decide (q.ts < min_ts))

/-- The value stored for one position: the mean of the absolute accelerations
over the window, passed through the attenuator when one is supplied. -/
def window_average (att : Option Attenuator) (window : List Position)
    (p : Position) : XFloat :=
  let absolute_accel :=
    XFloat.divNat (XFloat.sum (window.map (fun q => XFloat.abs q.accel)))
      window.length
  match att with
  | none => absolute_accel
  | some a => a.attenuateX absolute_accel p.speed_kph

/-- Loop of `Track.ensure_rolling_average_absolute_accels` over the
positions, returning the list of stored values in order. -/
def rolling_go (W : ℚ) (att : Option Attenuator) :
    List Position → List Position → List XFloat
  | _, [] => []
  | window, p :: rest =>
    window_average att (rolling_window_step (p.ts - W) window p) p ::
      rolling_go W att (rolling_window_step (p.ts - W) window p) rest

/-- Method `Track.ensure_rolling_average_absolute_accels`, returning the
values it stores per position instead of writing them into the mutable
`analysis_data` mapping. -/
def Track.ensure_rolling_average_absolute_accels (t : Track) (W : ℚ)
    (att : Option Attenuator) : List XFloat :=
  rolling_go W att [] t.positions

/-- Specification-side form of the rolling average: for each position the
window is the whole processed prefix filtered by the trailing window
condition. -/
def rolling_spec_go (W : ℚ) (att : Option Attenuator) :
    List Position → List Position → List XFloat
  | _, [] => []
  | pre, p :: rest =>
    window_average att
      ((pre ++ [p]).filter (fun q => decide (p.ts - W ≤ q.ts))) p ::
      rolling_spec_go W att (pre ++ [p]) rest

section RollingLemmas

theorem dropWhile_eq_filter_of_sorted (c : ℚ) :
    ∀ l : List Position, List.Pairwise (fun p q => p.ts ≤ q.ts) l →
      l.dropWhile (fun q => decide (q.ts < c)) =
        l.filter (fun q => decide (c ≤ q.ts)) := by
  intro l
  induction l with
  | nil => intro _; rfl
  | cons a l ih =>
    intro h
    rw [List.pairwise_cons] at h
    obtain ⟨ha, hl⟩ := h
    by_cases hac : a.ts < c
    · rw [List.dropWhile_cons_of_pos (by simpa using hac),
        List.filter_cons_of_neg (by simpa using not_le.mpr hac)]
      exact ih hl
    · rw [List.dropWhile_cons_of_neg (by simpa using hac),
        List.filter_cons_of_pos (by simpa using not_lt.mp hac)]
      congr 1
      symm
      rw [List.filter_eq_self]
      intro q hq
      simpa using le_trans (not_lt.mp hac) (ha q hq)

theorem filter_ts_absorb (m c : ℚ) (hmc : m ≤ c) (l : List Position) :
    (l.filter (fun q => decide (m ≤ q.ts))).filter
        (fun q => decide (c ≤ q.ts)) =
      l.filter (fun q => decide (c ≤ q.ts)) := by
  rw [List.filter_filter]
  apply List.filter_congr
  intro q _
  by_cases hq : c ≤ q.ts
  · simp [hq, le_trans hmc hq]
  · simp [hq]

theorem rolling_go_eq_spec (W : ℚ) (att : Option Attenuator) (hW : 0 ≤ W) :
    ∀ (rest pre : List Position) (m : ℚ),
      List.Pairwise (fun p q => p.ts ≤ q.ts) (pre ++ rest) →
      (∀ p ∈ rest, m ≤ p.ts - W) →
      rolling_go W att (pre.filter (fun q => decide (m ≤ q.ts))) rest =
        rolling_spec_go W att pre rest := by
  intro rest
  induction rest with
  | nil => intro pre m _ _; rfl
  | cons p rest ih =>
    intro pre m hsorted hm
    have hmp : m ≤ p.ts - W := hm p (List.mem_cons_self p rest)
    have hmpts : m ≤ p.ts := le_trans hmp (by linarith)
    have hsub : (pre ++ [p]).Sublist (pre ++ p :: rest) :=
      List.Sublist.append_left (by simp) pre
    have hstep : rolling_window_step (p.ts - W)
        (pre.filter (fun q => decide (m ≤ q.ts))) p =
        (pre ++ [p]).filter (fun q => decide (p.ts - W ≤ q.ts)) := by
      unfold rolling_window_step
      have h1 : pre.filter (fun q => decide (m ≤ q.ts)) ++ [p] =
          (pre ++ [p]).filter (fun q => decide (m ≤ q.ts)) := by
        rw [List.filter_append]
        congr 1
        simp [hmpts]
      rw [h1]
      rw [dropWhile_eq_filter_of_sorted _ _
        (List.Pairwise.filter _ (List.Pairwise.sublist hsub hsorted))]
      exact filter_ts_absorb m (p.ts - W) hmp (pre ++ [p])
    have htail : ∀ q ∈ rest, p.ts - W ≤ q.ts - W := by
      intro q hq
      have : p.ts ≤ q.ts := by
        have h2 := (List.pairwise_append.mp hsorted).2.1
        rw [List.pairwise_cons] at h2
        exact h2.1 q hq
      linarith
    simp only [rolling_go, rolling_spec_go, hstep]
    congr 1
    have := ih (pre ++ [p]) (p.ts - W)
      (by rwa [List.append_assoc, List.singleton_append]) htail
    exact this

theorem rolling_spec_go_get (W : ℚ) (att : Option Attenuator) :
    ∀ (rest pre : List Position) (i : ℕ) (hi : i < rest.length),
      (rolling_spec_go W att pre rest)[i]? =
        some (window_average att
          ((pre ++ rest.take (i + 1)).filter
            (fun q => decide ((rest[i]).ts - W ≤ q.ts))) (rest[i])) := by
  intro rest
  induction rest with
  | nil =>
    intro pre i hi
    simp at hi
  | cons p rest ih =>
    intro pre i hi
    cases i with
    | zero => simp [rolling_spec_go]
    | succ j =>
      have hj : j < rest.length := by
        simp only [List.length_cons] at hi
        omega
      simp only [rolling_spec_go, List.getElem?_cons_succ,
        List.getElem_cons_succ]
      rw [ih (pre ++ [p]) j hj]
      rw [List.take_succ_cons, List.append_assoc, List.singleton_append]

theorem rolling_go_length (W : ℚ) (att : Option Attenuator) :
    ∀ (rest window : List Position),
      (rolling_go W att window rest).length = rest.length := by
  intro rest
  induction rest with
  | nil => intro window; rfl
  | cons p rest ih =>
    intro window
    simp only [rolling_go, List.length_cons, ih]

theorem mem_take_ts_le {l : List Position}
    (h : List.Pairwise (fun p q => p.ts ≤ q.ts) l) (i : ℕ)
    (hi : i < l.length) : ∀ q ∈ l.take (i + 1), q.ts ≤ (l[i]).ts := by
  intro q hq
  obtain ⟨j, hj, hjq⟩ := List.mem_iff_getElem.mp hq
  have hjl : j < l.length := by
    simp only [List.length_take] at hj
    omega
  have hji : j ≤ i := by
    simp only [List.length_take] at hj
    omega
  rw [← hjq, List.getElem_take]
  rcases Nat.lt_or_ge j i with hlt | hge
  · exact List.pairwise_iff_getElem.mp h j i hjl hi hlt
  · have : j = i := by omega
    subst this
    exact le_refl _

end RollingLemmas

theorem rolling_go_get_spec (W : ℚ) (att : Option Attenuator) (hW : 0 ≤ W)
    (l : List Position)
    (hsorted : List.Pairwise (fun p q => p.ts ≤ q.ts) l)
    (i : ℕ) (hi : i < l.length) :
    (rolling_go W att [] l)[i]? =
      some (window_average att
        ((l.take (i + 1)).filter
          (fun q => decide ((l[i]).ts - W ≤ q.ts ∧ q.ts ≤ (l[i]).ts)))
        (l[i])) := by
  cases l with
  | nil => simp at hi
  | cons p0 ps =>
    have hgo : rolling_go W att [] (p0 :: ps) =
        rolling_spec_go W att [] (p0 :: ps) := by
      have hm : ∀ p ∈ p0 :: ps, p0.ts - W ≤ p.ts - W := by
        intro p hp
        rcases List.mem_cons.mp hp with h1 | h1
        · rw [h1]
        · have := (List.pairwise_cons.mp hsorted).1 p h1
          linarith
      have := rolling_go_eq_spec W att hW (p0 :: ps) [] (p0.ts - W)
        (by simpa using hsorted) hm
      simpa using this
    rw [hgo, rolling_spec_go_get W att (p0 :: ps) [] i hi]
    congr 2
    rw [List.nil_append]
    symm
    apply List.filter_congr
    intro q hq
    have hqle : q.ts ≤ ((p0 :: ps)[i]).ts :=
      mem_take_ts_le hsorted i hi q hq
    by_cases hc : ((p0 :: ps)[i]).ts - W ≤ q.ts
    · simp [hc, hqle]
    · simp [hc]

/-- C5: for a track whose positions are non-decreasing by timestamp and a
non-negative window, the rolling average stores one value per position, and
the value for position i is the mean of the absolute accelerations over
exactly the positions at or before i whose timestamp lies in the trailing
inclusive window, passed through the attenuator when one is supplied. -/
theorem rolling_average_window_characterization
    (t : Track) (W : ℚ) (att : Option Attenuator) (hW : 0 ≤ W)
    (hsorted : List.Pairwise (fun p q => p.ts ≤ q.ts) t.positions) :
    (t.ensure_rolling_average_absolute_accels W att).length =
      t.positions.length ∧
    ∀ (i : ℕ) (hi : i < t.positions.length),
      (t.ensure_rolling_average_absolute_accels W att)[i]? =
        some (window_average att
          ((t.positions.take (i + 1)).filter
            (fun q => decide ((t.positions[i]).ts - W ≤ q.ts ∧
              q.ts ≤ (t.positions[i]).ts)))
          (t.positions[i])) := by
  constructor
  · exact rolling_go_length W att t.positions []
  · intro i hi
    exact rolling_go_get_spec W att hW t.positions hsorted i hi

/-- Witness for C5 on a concrete two-position track with window 10: the
stored value for position 1 averages both positions. -/
theorem rolling_average_window_characterization_witness :
    (Track.ensure_rolling_average_absolute_accels
        ⟨[⟨0, 0, 0, 0, XFloat.val 2⟩, ⟨1, 0, 0, 0, XFloat.val 4⟩]⟩ 10 none)[1]? =
      some (window_average none
        (List.filter
          (fun q : Position => decide ((1 : ℚ) - 10 ≤ q.ts ∧ q.ts ≤ (1 : ℚ)))
          (List.take 2
            [⟨0, 0, 0, 0, XFloat.val 2⟩, ⟨1, 0, 0, 0, XFloat.val 4⟩]))
        ⟨1, 0, 0, 0, XFloat.val 4⟩) :=
  (rolling_average_window_characterization
    ⟨[⟨0, 0, 0, 0, XFloat.val 2⟩, ⟨1, 0, 0, 0, XFloat.val 4⟩]⟩ 10 none
    (by decide) (by decide)).2 1 (by decide)

/-- Exceptions the continuity check can raise: the uncaught StopIteration
from `next` when no message carries a timestamp while positions exist, and
the ZeroDivisionError when the discontinuous fraction divides by a zero
first-to-last span. -/
inductive ContinuityErr where
  | stopIteration
  | zeroDivision
deriving DecidableEq

/-- Method `FitFileParser._check_start_end_offsets`: the IndexError on an
empty positions list is caught (logged as a warning, returning no span);
otherwise the first and last message timestamps are taken with `next`,
which raises StopIteration when no message carries a timestamp. -/
def check_start_end_offsets (messages : List FitMessage)
    (positions : List Position) : Except ContinuityErr (Option (ℚ × ℚ)) :=
  match positions with
  | [] => .ok none
  | p :: ps =>
    match (messages.filterMap (fun m => m.timestamp)).head? with
    | none => .error .stopIteration
    | some _ =>
      match (messages.reverse.filterMap (fun m => m.timestamp)).head? with
      | none => .error .stopIteration
      | some _ => .ok (some (p.ts, ((p :: ps).getLast (List.cons_ne_nil p ps)).ts))

/-- Loop of `_check_position_continuity` grouping consecutive position pairs
into maximal runs at most one second apart; a pendulum datetime is always
truthy, so the interval-start variable is an Option that is some exactly
when the loop has run at least once. -/
def gap_intervals_go (intervals : List (ℚ × ℚ)) (interval_start : Option ℚ) :
    List (Position × Position) → List (ℚ × ℚ) × Option ℚ
  | [] => (intervals, interval_start)
  | (p1, p2) :: rest =>
    if p1.ts + 1 ≥ p2.ts then
      gap_intervals_go intervals (some (interval_start.getD p1.ts)) rest
    else
      gap_intervals_go (intervals ++ [(interval_start.getD p1.ts, p1.ts)])
        (some p2.ts) rest

/-- The closed continuity intervals of a position list, with the trailing
interval flushed using the second element of the last consecutive pair. -/
def intervals_of (positions : List Position) : List (ℚ × ℚ) :=
  let pairs := positions.zip positions.tail
  let st := gap_intervals_go [] none pairs
  match st.2, pairs.getLast? with
  | some s, some pr => st.1 ++ [(s, pr.2.ts)]
  | _, _ => st.1

/-- Total discontinuous duration: the sum of the gaps between consecutive
intervals. -/
def discontinuous_duration (intervals : List (ℚ × ℚ)) : ℚ :=
  ((intervals.zip intervals.tail).map (fun pr => pr.2.1 - pr.1.2)).sum

/-- Method `FitFileParser._check_position_continuity`: offsets check, then
gap grouping; when a nonzero discontinuous duration exists, its fraction of
the first-to-last span is computed, dividing by zero when the span is zero.
The none branch of the span is unreachable there (no positions means no
discontinuities). -/
def check_position_continuity (messages : List FitMessage)
    (positions : List Position) : Except ContinuityErr Unit :=
  match check_start_end_offsets messages positions with
  | .error e => .error e
  | .ok se =>
    if discontinuous_duration (intervals_of positions) ≠ 0 then
      match se with
      | some pr => if pr.2 - pr.1 = 0 then .error .zeroDivision else .ok ()
      | none => .ok ()
    else .ok ()

section ContinuityLemmas

theorem gap_go_no_gap :
    ∀ (pairs : List (Position × Position)) (intervals : List (ℚ × ℚ))
      (s : Option ℚ),
      (∀ pr ∈ pairs, pr.1.ts + 1 ≥ pr.2.ts) →
      (gap_intervals_go intervals s pairs).1 = intervals := by
  intro pairs
  induction pairs with
  | nil => intro _ _ _; rfl
  | cons pr rest ih =>
    intro intervals s h
    obtain ⟨p1, p2⟩ := pr
    have h1 : p1.ts + 1 ≥ p2.ts := h (p1, p2) (List.mem_cons_self _ _)
    simp only [gap_intervals_go, if_pos h1]
    exact ih intervals _ (fun q hq => h q (List.mem_cons_of_mem _ hq))

theorem discont_of_short {intervals : List (ℚ × ℚ)}
    (h : intervals.length ≤ 1) : discontinuous_duration intervals = 0 := by
  match intervals, h with
  | [], _ => rfl
  | [x], _ => rfl

theorem gap_intervals_len_le {positions : List Position}
    (h : ∀ pr ∈ positions.zip positions.tail, pr.1.ts + 1 ≥ pr.2.ts) :
    (intervals_of positions).length ≤ 1 := by
  unfold intervals_of
  have hgo := gap_go_no_gap (positions.zip positions.tail) [] none h
  cases hst : (gap_intervals_go [] none (positions.zip positions.tail)).2 with
  | none => simp [hgo, hst]
  | some s =>
    cases hlast : (positions.zip positions.tail).getLast? with
    | none => simp [hgo, hst, hlast]
    | some pr => simp [hgo, hst, hlast]

theorem mem_zip_tail {l : List Position} {pr : Position × Position}
    (h : pr ∈ l.zip l.tail) :
    ∃ k, ∃ hk : k + 1 < l.length, l[k] = pr.1 ∧ l[k + 1] = pr.2 := by
  obtain ⟨i, hi, hie⟩ := List.mem_iff_getElem.mp h
  have hlen : (l.zip l.tail).length = Min.min l.length l.tail.length := by
    simp [List.length_zip]
  have hit : i < l.tail.length := by
    rw [hlen] at hi
    omega
  have hil : i < l.length := by
    rw [hlen] at hi
    omega
  have hk : i + 1 < l.length := by
    rcases l with _ | ⟨a, l2⟩
    · simp at hil
    · simp only [List.tail_cons] at hit
      simp only [List.length_cons]
      omega
  refine ⟨i, hk, ?_, ?_⟩
  · have := @List.getElem_zip Position Position l l.tail i hi
    rw [hie] at this
    exact congrArg Prod.fst this.symm
  · have := @List.getElem_zip Position Position l l.tail i hi
    rw [hie] at this
    have h2 : l.tail[i] = l[i + 1] := by
      rcases l with _ | ⟨a, l2⟩
      · simp at hil
      · simp
    rw [h2] at this
    exact congrArg Prod.snd this.symm

theorem head_lt_getLast_of_gap {p : Position} {ps : List Position}
    (hsorted : List.Pairwise (fun a b : Position => a.ts ≤ b.ts) (p :: ps))
    (hgap : ∃ pr ∈ (p :: ps).zip (p :: ps).tail, ¬ (pr.1.ts + 1 ≥ pr.2.ts)) :
    p.ts < ((p :: ps).getLast (List.cons_ne_nil p ps)).ts := by
  obtain ⟨pr, hmem, hlt⟩ := hgap
  obtain ⟨k, hk, h1, h2⟩ := mem_zip_tail hmem
  have h0 : 0 < (p :: ps).length := by simp
  have hll : (p :: ps).length - 1 < (p :: ps).length := by omega
  have hklt : (p :: ps)[k].ts < (p :: ps)[k + 1].ts := by
    rw [h1, h2]
    linarith [lt_of_not_ge hlt]
  have hfirst : (p :: ps)[0].ts ≤ (p :: ps)[k].ts := by
    rcases Nat.eq_zero_or_pos k with hz | hpos2
    · subst hz
      exact le_refl _
    · exact List.pairwise_iff_getElem.mp hsorted 0 k (by omega) (by omega) hpos2
  have hlast : (p :: ps)[k + 1].ts ≤ ((p :: ps)[(p :: ps).length - 1]).ts := by
    rcases Nat.lt_or_ge (k + 1) ((p :: ps).length - 1) with hlt2 | hge
    · exact List.pairwise_iff_getElem.mp hsorted (k + 1) _ (by omega) hll hlt2
    · have heq : k + 1 = (p :: ps).length - 1 := by omega
      simp only [heq]
      exact le_refl _
  have hgl : (p :: ps).getLast (List.cons_ne_nil p ps) =
      (p :: ps)[(p :: ps).length - 1] :=
    List.getLast_eq_getElem (p :: ps) (List.cons_ne_nil p ps)
  have hh : (p :: ps)[0] = p := rfl
  rw [hgl]
  calc p.ts = (p :: ps)[0].ts := by rw [hh]
    _ ≤ (p :: ps)[k].ts := hfirst
    _ < (p :: ps)[k + 1].ts := hklt
    _ ≤ ((p :: ps)[(p :: ps).length - 1]).ts := hlast

end ContinuityLemmas

/-- C9 counterexample: the continuity check does not return normally for
every pair of lists.  With a single position and an empty message list the
`next` over the message timestamps raises StopIteration (only the
IndexError is caught); and with a timestamped message but positions at
timestamps 0, 5, 0 (an ordering the track invariant merely logs about
rather than enforces) the gap grouping finds a nonzero discontinuous
duration while the first-to-last span is zero, so the fraction computation
raises ZeroDivisionError. -/
theorem continuity_check_counterexample :
    check_position_continuity [] [⟨0, 0, 0, 0, XFloat.val 0⟩] =
      .error .stopIteration ∧
    check_position_continuity [⟨some 0, none, none, none, []⟩]
        [⟨0, 0, 0, 0, XFloat.val 0⟩, ⟨5, 0, 0, 0, XFloat.val 0⟩,
          ⟨0, 0, 0, 0, XFloat.val 0⟩] =
      .error .zeroDivision := by
  constructor
  · rfl
  · norm_num [check_position_continuity, check_start_end_offsets,
      intervals_of, gap_intervals_go, discontinuous_duration, List.zip,
      List.zipWith]

/-- C9 amended: the continuity check returns normally (it is a pure
diagnostic producing only log output) for every message list and every
position list that is non-decreasing by timestamp, provided the position
list is empty or some message carries a usable timestamp - which holds for
every pair reaching it from parse, since every extracted position comes
from a message with a timestamp. -/
theorem continuity_check_returns_amended
    (messages : List FitMessage) (positions : List Position)
    (hsorted : List.Pairwise (fun p q : Position => p.ts ≤ q.ts) positions)
    (hts : positions = [] ∨ ∃ m ∈ messages, m.timestamp.isSome) :
    check_position_continuity messages positions = .ok () := by
  cases hpos : positions with
  | nil =>
    rfl
  | cons p ps =>
    rcases hts with hnil | ⟨m, hm, hmts⟩
    · rw [hpos] at hnil
      exact absurd hnil (List.cons_ne_nil p ps)
    · obtain ⟨t, ht⟩ := Option.isSome_iff_exists.mp hmts
      have h1 : ∃ x xs, messages.filterMap (fun m => m.timestamp) = x :: xs := by
        have hmem : t ∈ messages.filterMap (fun m => m.timestamp) :=
          List.mem_filterMap.mpr ⟨m, hm, ht⟩
        cases hl : messages.filterMap (fun m => m.timestamp) with
        | nil => rw [hl] at hmem; simp at hmem
        | cons x xs => exact ⟨x, xs, rfl⟩
      have h2 : ∃ x xs,
          messages.reverse.filterMap (fun m => m.timestamp) = x :: xs := by
        have hmem : t ∈ messages.reverse.filterMap (fun m => m.timestamp) :=
          List.mem_filterMap.mpr ⟨m, by simpa using hm, ht⟩
        cases hl : messages.reverse.filterMap (fun m => m.timestamp) with
        | nil => rw [hl] at hmem; simp at hmem
        | cons x xs => exact ⟨x, xs, rfl⟩
      obtain ⟨x1, xs1, hx1⟩ := h1
      obtain ⟨x2, xs2, hx2⟩ := h2
      have hoff : check_start_end_offsets messages (p :: ps) =
          .ok (some (p.ts, ((p :: ps).getLast (List.cons_ne_nil p ps)).ts)) := by
        simp only [check_start_end_offsets, hx1, hx2, List.head?_cons]
      rw [hpos] at hsorted
      simp only [check_position_continuity, hoff]
      by_cases hd :
          discontinuous_duration (intervals_of (p :: ps)) ≠ 0
      · rw [if_pos hd]
        have hgap : ∃ pr ∈ (p :: ps).zip (p :: ps).tail,
            ¬ (pr.1.ts + 1 ≥ pr.2.ts) := by
          by_contra hno
          push_neg at hno
          exact hd (discont_of_short (gap_intervals_len_le hno))
        have hlt := head_lt_getLast_of_gap hsorted hgap
        rw [if_neg (by intro h0; linarith)]
      · rw [if_neg hd]

/-- Witness for C9 at a concrete sorted two-position list and one
timestamped message. -/
theorem continuity_check_returns_amended_witness :
    check_position_continuity [⟨some 0, none, none, none, []⟩]
      [⟨0, 0, 0, 0, XFloat.val 0⟩, ⟨5, 0, 0, 0, XFloat.val 1⟩] = .ok () :=
  continuity_check_returns_amended [⟨some 0, none, none, none, []⟩]
    [⟨0, 0, 0, 0, XFloat.val 0⟩, ⟨5, 0, 0, 0, XFloat.val 1⟩]
    (by decide) (Or.inr ⟨⟨some 0, none, none, none, []⟩, by simp, rfl⟩)

/-- One geolocation fix of the sensebox JSON (`geoLocationDatas` record with
its receiveTime parsed to a timestamp). -/
structure GeoData where
  receiveTime : ℚ
  lon : ℚ
  lat : ℚ
  speed : ℚ
deriving DecidableEq

/-- Method `SenseboxBikeRawAccelerationParser._interpolate_geodata`: outside
the bracket the nearer end is returned whole and the sample counted as out
of bounds (the second component); inside, `l_fraction`, computed as the
normalized distance of ts from l, multiplies the l record and
`r_fraction = 1 - l_fraction` multiplies the r record.  Returns
(lon, lat, speed) and the counted flag. -/
def interpolate_geodata (l r : GeoData) (ts : ℚ) : (ℚ × ℚ × ℚ) × Bool :=
  if ts < l.receiveTime then ((l.lon, l.lat, l.speed), true)
  else if ts > r.receiveTime then ((r.lon, r.lat, r.speed), true)
  else
    let timespan := r.receiveTime - l.receiveTime
    let l_fraction := (ts - l.receiveTime) / timespan
    let r_fraction := 1 - l_fraction
    ((l_fraction * l.lon + r_fraction * r.lon,
      l_fraction * l.lat + r_fraction * r.lat,
      l_fraction * l.speed + r_fraction * r.speed), false)

/-- The inner while loop of `_add_geolocation_data`: advance the pairwise
iterator while the sample timestamp is before the left fix of the current
pair, stopping silently when the iterator is exhausted. -/
def advance_geodata_pairs (ts : ℚ) (cur : GeoData × GeoData) :
    List (GeoData × GeoData) → (GeoData × GeoData) × List (GeoData × GeoData)
  | [] => (cur, [])
  | pr :: rest =>
    if ts < cur.1.receiveTime then advance_geodata_pairs ts pr rest
    else (cur, pr :: rest)

/-- Loop of `_add_geolocation_data` over the positions, writing the
interpolated longitude, latitude and speed into each position. -/
def add_geolocation_go (cur : GeoData × GeoData)
    (pairs : List (GeoData × GeoData)) :
    List Position → List Position
  | [] => []
  | p :: ps =>
    let st := advance_geodata_pairs p.ts cur pairs
    let v := (interpolate_geodata st.1.1 st.1.2 p.ts).1
    ⟨p.ts, v.1, v.2.1, v.2.2, p.accel⟩ :: add_geolocation_go st.1 st.2 ps

/-- Method `SenseboxBikeRawAccelerationParser._add_geolocation_data`: fewer
than two fixes is a ValueError, otherwise every position receives values
from the pair the loop settles on. -/
def add_geolocation_data (geodata : List GeoData)
    (positions : List Position) : Except String (List Position) :=
  match geodata.zip geodata.tail with
  | [] => .error "There are not even 2 geodatas, this is not useful."
  | c :: pairs => .ok (add_geolocation_go c pairs positions)

/-- C6 evaluation at the failing inputs.  First: with fixes at receive times
0 and 10 carrying lon/lat/speed 0 and 10, a sample at timestamp 0 (exactly
the first fix) is assigned the SECOND fix values 10, not the first fix
values 0 as the claim requires, because the interpolation weights are
swapped.  Second: with a third fix at receive time 20 carrying value 20, a
sample at timestamp 15 (inside the second bracket) is clamped to the first
bracket right end 10 instead of being interpolated to 15 between the
bracketing fixes at 10 and 20, because the advance loop condition compares
against the left fix instead of the right one and therefore never
advances. -/
theorem geodata_interpolation_bug :
    (add_geolocation_data [⟨0, 0, 0, 0⟩, ⟨10, 10, 10, 10⟩]
        [⟨0, 99, 99, 99, XFloat.val 0⟩] =
      .ok [⟨0, 10, 10, 10, XFloat.val 0⟩] ∧ (10 : ℚ) ≠ 0) ∧
    (add_geolocation_data [⟨0, 0, 0, 0⟩, ⟨10, 10, 10, 10⟩, ⟨20, 20, 20, 20⟩]
        [⟨15, 99, 99, 99, XFloat.val 0⟩] =
      .ok [⟨15, 10, 10, 10, XFloat.val 0⟩] ∧ (10 : ℚ) ≠ 15) := by
  constructor
  · constructor
    · norm_num [add_geolocation_data, add_geolocation_go,
        advance_geodata_pairs, interpolate_geodata]
    · norm_num
  · constructor
    · norm_num [add_geolocation_data, add_geolocation_go,
        advance_geodata_pairs, interpolate_geodata]
    · norm_num
